import Mathlib

set_option linter.unusedVariables false

/-!
Verification of the sampling engine of `app.py` (Tunisia survey sampling app).

The population table (the uploaded sampling frame `df`) is modelled as a
`List Row`, one `Row` per record; `strat` holds the record's value of the
selected stratification column and `payload` abstracts all remaining columns.
Record identity is by value: a frame whose rows are pairwise distinct models
the pandas frame, whose rows are always distinguishable by their index.

The stratified branch of the app (lines 252-264) computes
  strata = df.groupby(strat_var).size().reset_index(name='Nh')
  strata['nh'] = np.round(n * strata['Nh'] / strata['Nh'].sum()).astype(int)
  diff = n - strata['nh'].sum(); if diff != 0: strata.iloc[-1, -1] += diff
  samples = [df[df[strat_var] == key].sample(n=nh, random_state=42) ...]
  final_sample = pd.concat(samples)
and the SRS branch (line 158) computes `df.sample(n=n, random_state=42)`.

Arithmetic is modelled exactly: `np.round` applied to the float quotient
`n * Nh / N` is modelled as round-half-to-even of the exact rational
`(n * Nh) / N`, computed on integers via div/mod (IEEE-754 division returns
the exactly representable quotient whenever the true quotient is a
representable half-integer, so tie behaviour agrees).

The pseudo-random selection performed by `DataFrame.sample(n, random_state=42)`
is modelled by an oracle `choose : Nat -> Nat -> List Nat` giving, for a frame
of a given length, the list of selected row positions.  Pandas draws `n`
distinct valid positions whenever `n <= len(df)` and, seeded with the constant
`random_state=42`, the selection is a pure function of the frame length and
`n`; `ValidChoice` captures exactly this contract.
-/

namespace Sondage

/-- One record of the population table: `strat` is the record's value of the
selected stratification column, `payload` abstracts the remaining columns. -/
structure Row where
  strat : Nat
  payload : Nat
deriving DecidableEq

/-- One row of the allocation table `strata`: stratum key, population count
`Nh`, allocated sample size `nh` (an int64 column, so modelled in ℤ:
the residual correction is signed). -/
structure AllocRow where
  key : Nat
  Nh : Nat
  nh : Int
deriving DecidableEq

/-- Models the boolean-mask subsetting `df[df[strat_var] == key]`. -/
def stratumOf (df : List Row) (k : Nat) : List Row :=
  df.filter (fun r => r.strat == k)

/-- Models the per-stratum record count `df.groupby(strat_var).size()`
at key `k`. -/
def countNh (df : List Row) (k : Nat) : Nat :=
  (stratumOf df k).length

/-- Insert into a sorted list, keeping ascending order. -/
def insertSorted (a : Nat) : List Nat → List Nat
  | [] => [a]
  | b :: bs => if a ≤ b then a :: b :: bs else b :: insertSorted a bs

/-- Insertion sort, ascending. -/
def sortKeys : List Nat → List Nat
  | [] => []
  | a :: as => insertSorted a (sortKeys as)

/-- The ordered sequence of distinct stratum keys, as produced by
`df.groupby(strat_var)`: pandas sorts the group keys ascending. -/
def stratKeys (df : List Row) : List Nat :=
  sortKeys (df.map Row.strat).dedup

/-- Models `strata['Nh'].sum()`, the denominator of the proportional shares. -/
def totalN (df : List Row) : Nat :=
  ((stratKeys df).map (countNh df)).sum

/-- Models `np.round` applied to the exact quotient `a / b`: round to the
nearest integer, ties to the even neighbour (numpy rounds half to even). -/
def roundHalfEven (a b : Nat) : Nat :=
  if 2 * (a % b) < b then a / b
  else if b < 2 * (a % b) then a / b + 1
  else if (a / b) % 2 = 0 then a / b else a / b + 1

/-- Rounding half away from zero of the (nonnegative) quotient `a / b`:
the behaviour the spec ascribes to step 3.  Follows the spec's words, for
comparison with `roundHalfEven`, which is what `np.round` does. -/
def roundHalfUp (a b : Nat) : Nat :=
  (2 * a + b) / (2 * b)

/-- The allocation table right after
`strata['nh'] = np.round(n * strata['Nh'] / strata['Nh'].sum()).astype(int)`,
before the residual correction. -/
def preAlloc (df : List Row) (n : Nat) : List AllocRow :=
  (stratKeys df).map (fun k =>
    ⟨k, countNh df k, (roundHalfEven (n * countNh df k) (totalN df) : Int)⟩)

/-- Models `diff = n - strata['nh'].sum()`, the rounding residual. -/
def allocDiff (df : List Row) (n : Nat) : Int :=
  (n : Int) - ((preAlloc df n).map AllocRow.nh).sum

/-- Models `strata.iloc[-1, -1] += diff`: add `d` to the `nh` entry of the
last row of the allocation table. -/
def addToLast (d : Int) : List AllocRow → List AllocRow
  | [] => []
  | [t] => [⟨t.key, t.Nh, t.nh + d⟩]
  | t :: t' :: ts => t :: addToLast d (t' :: ts)

/-- The final allocation table `strata` of the stratified branch:
rounded proportional shares, then `if diff != 0: strata.iloc[-1, -1] += diff`. -/
def allocate (df : List Row) (n : Nat) : List AllocRow :=
  if allocDiff df n = 0 then preAlloc df n
  else addToLast (allocDiff df n) (preAlloc df n)

/- ------------------- basic facts about the key list ------------------- -/

theorem insertSorted_perm (a : Nat) (l : List Nat) :
    List.Perm (insertSorted a l) (a :: l) := by
  induction l with
  | nil => simp [insertSorted]
  | cons b bs ih =>
    by_cases h : a ≤ b
    · simp [insertSorted, h]
    · simp only [insertSorted, if_neg h]
      exact (ih.cons b).trans (List.Perm.swap a b bs)

theorem sortKeys_perm (l : List Nat) : List.Perm (sortKeys l) l := by
  induction l with
  | nil => simp [sortKeys]
  | cons a as ih =>
    exact (insertSorted_perm a (sortKeys as)).trans (ih.cons a)

theorem stratKeys_perm_dedup (df : List Row) :
    List.Perm (stratKeys df) (df.map Row.strat).dedup :=
  sortKeys_perm _

theorem stratKeys_nodup (df : List Row) : (stratKeys df).Nodup :=
  (stratKeys_perm_dedup df).nodup_iff.mpr (List.nodup_dedup _)

theorem mem_stratKeys (df : List Row) (k : Nat) :
    k ∈ stratKeys df ↔ ∃ r ∈ df, r.strat = k := by
  rw [(stratKeys_perm_dedup df).mem_iff, List.mem_dedup, List.mem_map]

theorem stratKeys_ne_nil (df : List Row) (hdf : df ≠ []) :
    stratKeys df ≠ [] := by
  obtain ⟨r, rs, rfl⟩ := List.exists_cons_of_ne_nil hdf
  intro h
  have : r.strat ∈ stratKeys (r :: rs) :=
    (mem_stratKeys _ _).mpr ⟨r, List.mem_cons_self r rs, rfl⟩
  rw [h] at this
  exact List.not_mem_nil _ this

/- ------------------------ C1 : exact total ----------------------------- -/

theorem addToLast_sum (d : Int) (l : List AllocRow) (hl : l ≠ []) :
    ((addToLast d l).map AllocRow.nh).sum = (l.map AllocRow.nh).sum + d := by
  induction l with
  | nil => exact absurd rfl hl
  | cons t ts ih =>
    cases ts with
    | nil => simp [addToLast]
    | cons t' ts' =>
      have := ih (List.cons_ne_nil t' ts')
      simp only [addToLast, List.map_cons, List.sum_cons, this]
      ring

theorem preAlloc_ne_nil (df : List Row) (n : Nat) (hdf : df ≠ []) :
    preAlloc df n ≠ [] := by
  unfold preAlloc
  simpa using stratKeys_ne_nil df hdf

/-- C1: for every non-empty population table and every `n` with
`1 ≤ n ≤ N`, the per-stratum sizes `nh` of the final allocation table sum
exactly to `n` after the residual correction. -/
theorem allocate_sum_eq_n (df : List Row) (n : Nat) (hdf : df ≠ [])
    (h1 : 1 ≤ n) (hn : n ≤ df.length) :
    ((allocate df n).map AllocRow.nh).sum = (n : Int) := by
  unfold allocate
  by_cases h : allocDiff df n = 0
  · rw [if_pos h]
    have := h
    unfold allocDiff at this
    omega
  · rw [if_neg h, addToLast_sum _ _ (preAlloc_ne_nil df n hdf)]
    unfold allocDiff
    ring

/-- Witness for C1 at a concrete input. -/
theorem allocate_sum_eq_n_holds :
    ((allocate [⟨0, 0⟩, ⟨0, 1⟩, ⟨1, 0⟩] 2).map AllocRow.nh).sum = (2 : Int) :=
  allocate_sum_eq_n [⟨0, 0⟩, ⟨0, 1⟩, ⟨1, 0⟩] 2 (by decide) (by decide) (by decide)

/- --------------- the denominator equals the frame length --------------- -/

theorem countNh_eq_count (df : List Row) (k : Nat) :
    countNh df k = (df.map Row.strat).count k := by
  induction df with
  | nil => rfl
  | cons r rs ih =>
    simp only [countNh, stratumOf, List.filter_cons, List.map_cons,
      List.count_cons] at *
    by_cases h : r.strat = k
    · simp [h, ih]
    · simp [h, Nat.beq_eq_true_eq, ih]

theorem totalN_eq_length (df : List Row) : totalN df = df.length := by
  unfold totalN
  have hperm : ((stratKeys df).map (countNh df)).sum
      = (((df.map Row.strat).dedup).map (countNh df)).sum :=
    ((stratKeys_perm_dedup df).map (countNh df)).sum_eq
  rw [hperm]
  have hmap : ((df.map Row.strat).dedup).map (countNh df)
      = ((df.map Row.strat).dedup).map (fun k => (df.map Row.strat).count k) :=
    List.map_congr_left (fun k _ => countNh_eq_count df k)
  rw [hmap, List.sum_map_count_dedup_eq_length, List.length_map]

/- ---------------------- arithmetic of the rounding --------------------- -/

theorem roundHalfEven_exact (b m : Nat) (hb : 0 < b) :
    roundHalfEven (b * m) b = m := by
  unfold roundHalfEven
  rw [Nat.mul_mod_right, Nat.mul_div_cancel_left m hb]
  simp [hb]

theorem roundHalfEven_le (a b m : Nat) (hb : 0 < b) (h : a ≤ b * m) :
    roundHalfEven a b ≤ m := by
  have hdm : b * (a / b) + a % b = a := Nat.div_add_mod a b
  have hrb : a % b < b := Nat.mod_lt a hb
  have hq : a / b ≤ m := by
    have : b * (a / b) ≤ b * m := le_trans (Nat.le.intro hdm) h
    exact Nat.le_of_mul_le_mul_left this hb
  unfold roundHalfEven
  by_cases h1 : 2 * (a % b) < b
  · rw [if_pos h1]; exact hq
  · rw [if_neg h1]
    have hr1 : 1 ≤ a % b := by omega
    have hlt : a / b < m := by
      rcases Nat.lt_or_ge (a / b) m with h' | h'
      · exact h'
      · exfalso
        have : a / b = m := le_antisymm hq h'
        rw [this] at hdm
        omega
    by_cases h2 : b < 2 * (a % b)
    · rw [if_pos h2]; omega
    · rw [if_neg h2]
      by_cases h3 : (a / b) % 2 = 0
      · rw [if_pos h3]; exact hq
      · rw [if_neg h3]; omega

theorem roundHalfEven_tie_even (a b : Nat) (ht : 2 * (a % b) = b) :
    (roundHalfEven a b) % 2 = 0 := by
  unfold roundHalfEven
  rw [ht]
  simp only [lt_irrefl, if_false]
  by_cases h3 : (a / b) % 2 = 0
  · rw [if_pos h3]; exact h3
  · rw [if_neg h3]; omega

theorem roundHalfEven_nearest (a b : Nat) (hb : 0 < b) :
    |((a : ℚ) / (b : ℚ)) - ((roundHalfEven a b : Nat) : ℚ)| ≤ 1 / 2 := by
  have hdm : b * (a / b) + a % b = a := Nat.div_add_mod a b
  have hrb : a % b < b := Nat.mod_lt a hb
  have hbq : (0 : ℚ) < (b : ℚ) := by exact_mod_cast hb
  have ha : (a : ℚ) = (b : ℚ) * ((a / b : Nat) : ℚ) + ((a % b : Nat) : ℚ) := by
    exact_mod_cast hdm.symm
  have hval : (a : ℚ) / (b : ℚ)
      = ((a / b : Nat) : ℚ) + ((a % b : Nat) : ℚ) / (b : ℚ) := by
    rw [ha]; field_simp; ring
  unfold roundHalfEven
  by_cases h1 : 2 * (a % b) < b
  · rw [if_pos h1, hval]
    have h0 : (0 : ℚ) ≤ ((a % b : Nat) : ℚ) / (b : ℚ) :=
      div_nonneg (by positivity) (le_of_lt hbq)
    have hhalf : ((a % b : Nat) : ℚ) / (b : ℚ) ≤ 1 / 2 := by
      rw [div_le_div_iff hbq (by norm_num)]
      have : (2 * (a % b) : Nat) ≤ (b : Nat) := le_of_lt h1
      have := (Nat.cast_le (α := ℚ)).mpr this
      push_cast at this
      linarith
    rw [abs_le]
    constructor <;> [linarith; linarith]
  · rw [if_neg h1]
    have hub : ((a % b : Nat) : ℚ) / (b : ℚ) ≤ 1 := by
      rw [div_le_one hbq]
      exact_mod_cast le_of_lt hrb
    have hlb : 1 / 2 ≤ ((a % b : Nat) : ℚ) / (b : ℚ) := by
      rw [div_le_div_iff (by norm_num) hbq]
      have : (b : Nat) ≤ 2 * (a % b) := le_of_not_lt h1
      have := (Nat.cast_le (α := ℚ)).mpr this
      push_cast at this
      linarith
    by_cases h2 : b < 2 * (a % b)
    · rw [if_pos h2, hval]
      push_cast
      rw [abs_le]
      constructor <;> linarith
    · rw [if_neg h2]
      have ht : 2 * (a % b) = b := by omega
      have heq : ((a % b : Nat) : ℚ) / (b : ℚ) = 1 / 2 := by
        rw [div_eq_div_iff (ne_of_gt hbq) (by norm_num)]
        have := congrArg (fun x : Nat => (x : ℚ)) ht
        push_cast at this
        linarith
      by_cases h3 : (a / b) % 2 = 0
      · rw [if_pos h3, hval]
        rw [abs_le]
        constructor <;> linarith
      · rw [if_neg h3, hval]
        push_cast
        rw [abs_le]
        constructor <;> linarith

/- ------------------- the residual goes to the last row ------------------ -/

theorem addToLast_ne_nil (d : Int) (l : List AllocRow) (h : l ≠ []) :
    addToLast d l ≠ [] := by
  cases l with
  | nil => exact absurd rfl h
  | cons t ts => cases ts <;> simp [addToLast]

theorem addToLast_dropLast (d : Int) :
    ∀ l : List AllocRow, (addToLast d l).dropLast = l.dropLast
  | [] => rfl
  | [t] => rfl
  | t :: t' :: ts => by
    have ih := addToLast_dropLast d (t' :: ts)
    show (t :: addToLast d (t' :: ts)).dropLast = (t :: t' :: ts).dropLast
    rw [List.dropLast_cons_of_ne_nil
        (addToLast_ne_nil d (t' :: ts) (List.cons_ne_nil t' ts)),
      List.dropLast_cons_of_ne_nil (List.cons_ne_nil t' ts), ih]

theorem addToLast_getLast (d : Int) :
    ∀ l : List AllocRow,
      (addToLast d l).getLast? = l.getLast?.map (fun t => ⟨t.key, t.Nh, t.nh + d⟩)
  | [] => rfl
  | [t] => rfl
  | t :: t' :: ts => by
    have ih := addToLast_getLast d (t' :: ts)
    show (t :: addToLast d (t' :: ts)).getLast? = _
    cases h : addToLast d (t' :: ts) with
    | nil => exact absurd h (addToLast_ne_nil d (t' :: ts) (List.cons_ne_nil t' ts))
    | cons u us =>
      rw [h] at ih
      rw [List.getLast?_cons_cons, ih, List.getLast?_cons_cons]

theorem alloc_dropLast (df : List Row) (n : Nat) :
    (allocate df n).dropLast = (preAlloc df n).dropLast := by
  unfold allocate
  by_cases h : allocDiff df n = 0
  · rw [if_pos h]
  · rw [if_neg h, addToLast_dropLast]

theorem alloc_getLast (df : List Row) (n : Nat) :
    (allocate df n).getLast?
      = (preAlloc df n).getLast?.map (fun t => ⟨t.key, t.Nh, t.nh + allocDiff df n⟩) := by
  unfold allocate
  by_cases h : allocDiff df n = 0
  · rw [if_pos h, h]
    cases (preAlloc df n).getLast? with
    | none => rfl
    | some t => simp
  · rw [if_neg h, addToLast_getLast]

/- ----------------- the spec's 333 / 333 / 334 scenario ----------------- -/

/-- Population of 1000 records split into strata of sizes 333, 333 and 334,
the worked scenario of the spec. -/
def scenarioDf : List Row :=
  List.replicate 333 ⟨0, 0⟩ ++ List.replicate 333 ⟨1, 0⟩ ++ List.replicate 334 ⟨2, 0⟩

theorem dedup_replicate_append (a : Nat) (l : List Nat) :
    ∀ n : Nat, (List.replicate n a ++ (a :: l)).dedup = (a :: l).dedup := by
  intro n
  induction n with
  | zero => rfl
  | succ m ih =>
    rw [List.replicate_succ, List.cons_append, List.dedup_cons_of_mem, ih]
    exact List.mem_append_right _ (List.mem_cons_self a l)

theorem filter_replicate_pos (p : Row → Bool) (r : Row) (h : p r = true) :
    ∀ n : Nat, (List.replicate n r).filter p = List.replicate n r := by
  intro n
  induction n with
  | zero => rfl
  | succ m ih =>
    rw [List.replicate_succ, List.filter_cons, h, ih, ← List.replicate_succ]
    rfl

theorem filter_replicate_neg (p : Row → Bool) (r : Row) (h : p r = false) :
    ∀ n : Nat, (List.replicate n r).filter p = [] := by
  intro n
  induction n with
  | zero => rfl
  | succ m ih =>
    rw [List.replicate_succ, List.filter_cons, h, ih]
    rfl

theorem scenario_strats :
    scenarioDf.map Row.strat
      = List.replicate 333 0 ++ List.replicate 333 1 ++ List.replicate 334 2 := by
  unfold scenarioDf
  rw [List.map_append, List.map_append, List.map_replicate, List.map_replicate,
    List.map_replicate]

theorem scenario_keys : stratKeys scenarioDf = [0, 1, 2] := by
  unfold stratKeys
  rw [scenario_strats]
  have h2 : (List.replicate 334 (2 : Nat)).dedup = [2] := by
    have hrw : List.replicate 334 (2 : Nat) = List.replicate 333 2 ++ (2 :: []) := by
      rw [show (334 : Nat) = 333 + 1 from rfl, List.replicate_succ']
    rw [hrw, dedup_replicate_append]
    rfl
  have h1 : (List.replicate 333 (1 : Nat) ++ List.replicate 334 2).dedup
      = 1 :: [2] := by
    have hrw : List.replicate 333 (1 : Nat) ++ List.replicate 334 2
        = List.replicate 332 1 ++ (1 :: List.replicate 334 2) := by
      rw [show (333 : Nat) = 332 + 1 from rfl, List.replicate_succ',
        List.append_assoc, List.singleton_append]
    have hnm : (1 : Nat) ∉ List.replicate 334 2 := fun h =>
      absurd (List.mem_replicate.mp h).2 (by decide)
    rw [hrw, dedup_replicate_append, List.dedup_cons_of_not_mem hnm, h2]
  have h0 : (List.replicate 333 (0 : Nat) ++ List.replicate 333 1
      ++ List.replicate 334 2).dedup = 0 :: 1 :: [2] := by
    have hrw : List.replicate 333 (0 : Nat) ++ List.replicate 333 1
          ++ List.replicate 334 2
        = List.replicate 332 0
          ++ (0 :: (List.replicate 333 1 ++ List.replicate 334 2)) := by
      rw [show (333 : Nat) = 332 + 1 from rfl, List.replicate_succ',
        List.append_assoc, List.append_assoc, List.singleton_append]
    have hnm : (0 : Nat) ∉ List.replicate 333 1 ++ List.replicate 334 2 := by
      intro h
      rcases List.mem_append.mp h with h' | h'
      · exact absurd (List.mem_replicate.mp h').2 (by decide)
      · exact absurd (List.mem_replicate.mp h').2 (by decide)
    rw [hrw, dedup_replicate_append, List.dedup_cons_of_not_mem hnm, h1]
  rw [h0]
  rfl

theorem scenario_counts :
    countNh scenarioDf 0 = 333 ∧ countNh scenarioDf 1 = 333
      ∧ countNh scenarioDf 2 = 334 := by
  unfold countNh stratumOf scenarioDf
  refine ⟨?_, ?_, ?_⟩
  · rw [List.filter_append, List.filter_append,
      filter_replicate_pos _ _ (by rfl), filter_replicate_neg _ _ (by rfl),
      filter_replicate_neg _ _ (by rfl), List.append_nil, List.append_nil,
      List.length_replicate]
  · rw [List.filter_append, List.filter_append,
      filter_replicate_neg _ _ (by rfl), filter_replicate_pos _ _ (by rfl),
      filter_replicate_neg _ _ (by rfl), List.append_nil, List.nil_append,
      List.length_replicate]
  · rw [List.filter_append, List.filter_append,
      filter_replicate_neg _ _ (by rfl), filter_replicate_neg _ _ (by rfl),
      filter_replicate_pos _ _ (by rfl), List.nil_append, List.nil_append,
      List.length_replicate]

theorem scenario_alloc :
    (allocate scenarioDf 100).map AllocRow.nh = [33, 33, 34] := by
  obtain ⟨c0, c1, c2⟩ := scenario_counts
  have htot : totalN scenarioDf = 1000 := by
    unfold totalN
    rw [scenario_keys]
    simp [c0, c1, c2]
  have hpre : preAlloc scenarioDf 100
      = [⟨0, 333, 33⟩, ⟨1, 333, 33⟩, ⟨2, 334, 33⟩] := by
    unfold preAlloc
    rw [scenario_keys, htot]
    simp only [List.map_cons, List.map_nil, c0, c1, c2]
    norm_num [roundHalfEven]
  have hdiff : allocDiff scenarioDf 100 = 1 := by
    unfold allocDiff
    rw [hpre]
    norm_num
  unfold allocate
  rw [hdiff, hpre]
  norm_num [addToLast]

/-- C5: the rounding residual is applied in its entirety to the last stratum
of the allocation table: every row but the last keeps its rounded value, and
the last row's nh is its rounded value plus the full residual; in particular
the allocation for the population (333, 333, 334) with n = 100 is
(33, 33, 34). -/
theorem allocate_residual_to_last :
    (∀ (df : List Row) (n : Nat),
      (allocate df n).dropLast = (preAlloc df n).dropLast ∧
      (allocate df n).getLast? = (preAlloc df n).getLast?.map
        (fun t => ⟨t.key, t.Nh, t.nh + allocDiff df n⟩)) ∧
    (allocate scenarioDf 100).map AllocRow.nh = [33, 33, 34] :=
  ⟨fun df n => ⟨alloc_dropLast df n, alloc_getLast df n⟩, scenario_alloc⟩

/- ------------------------ C9 : census boundary ------------------------- -/

theorem preAlloc_census (df : List Row) (hdf : df ≠ []) :
    (preAlloc df df.length).map AllocRow.nh
      = (stratKeys df).map (fun k => ((countNh df k : Nat) : Int)) := by
  have hb : 0 < totalN df := by
    rw [totalN_eq_length]
    exact List.length_pos.mpr hdf
  unfold preAlloc
  rw [List.map_map]
  refine List.map_congr_left (fun k hk => ?_)
  simp only [Function.comp]
  rw [← totalN_eq_length df, roundHalfEven_exact _ _ hb]

/-- C9: when n equals N the allocator performs a full census: the rounding
residual is zero and every stratum is allocated its entire population. -/
theorem allocate_census (df : List Row) (hdf : df ≠ []) :
    allocDiff df df.length = 0 ∧
    ∀ t ∈ allocate df df.length, t.nh = (t.Nh : Int) := by
  have hb : 0 < totalN df := by
    rw [totalN_eq_length]
    exact List.length_pos.mpr hdf
  have hdiff : allocDiff df df.length = 0 := by
    unfold allocDiff
    rw [preAlloc_census df hdf]
    have : ((stratKeys df).map (fun k => ((countNh df k : Nat) : Int))).sum
        = ((totalN df : Nat) : Int) := by
      unfold totalN
      rw [Nat.cast_list_sum, List.map_map]
      rfl
    rw [this, totalN_eq_length]
    ring
  refine ⟨hdiff, ?_⟩
  intro t ht
  rw [allocate, if_pos hdiff] at ht
  obtain ⟨k, hk, rfl⟩ := List.mem_map.mp ht
  show ((roundHalfEven (df.length * countNh df k) (totalN df) : Nat) : Int) = _
  rw [← totalN_eq_length df, roundHalfEven_exact _ _ hb]

/-- Witness for C9 at a concrete input. -/
theorem allocate_census_holds :
    allocDiff [⟨0, 0⟩, ⟨0, 1⟩, ⟨1, 0⟩] 3 = 0 ∧
    ∀ t ∈ allocate [⟨0, 0⟩, ⟨0, 1⟩, ⟨1, 0⟩] 3, t.nh = (t.Nh : Int) :=
  allocate_census [⟨0, 0⟩, ⟨0, 1⟩, ⟨1, 0⟩] (by decide)

/- ----------------------- C2 : the rounding mode ------------------------ -/

/-- C2 counterexample: on the two-stratum population (1, 1) with n = 1 both
raw shares are exactly one half; numpy rounds both to 0 (half to even),
while rounding half away from zero would give 1, so the claimed rounding
mode does not match the code. -/
theorem preAlloc_not_half_up :
    (1 ≤ 1 ∧ 1 ≤ ([⟨0, 0⟩, ⟨1, 0⟩] : List Row).length) ∧
    ¬ ∀ t ∈ preAlloc [⟨0, 0⟩, ⟨1, 0⟩] 1,
        t.nh = ((roundHalfUp (1 * t.Nh) (totalN [⟨0, 0⟩, ⟨1, 0⟩]) : Nat) : Int) := by
  decide

/-- C2 amended: in step 3 each raw share n * Nh / N is rounded to a nearest
integer, with ties resolved to the even neighbour (round-half-to-even, the
behaviour of np.round), not away from zero. -/
theorem preAlloc_round_half_even (df : List Row) (n : Nat) (hdf : df ≠ []) :
    ∀ t ∈ preAlloc df n,
      |((n : ℚ) * (t.Nh : ℚ) / (totalN df : ℚ) - (t.nh : ℚ))| ≤ 1 / 2 ∧
      (2 * ((n * t.Nh) % totalN df) = totalN df → t.nh % 2 = 0) := by
  have hb : 0 < totalN df := by
    rw [totalN_eq_length]
    exact List.length_pos.mpr hdf
  intro t ht
  obtain ⟨k, hk, rfl⟩ := List.mem_map.mp ht
  dsimp only
  constructor
  · have := roundHalfEven_nearest (n * countNh df k) (totalN df) hb
    push_cast at this ⊢
    convert this using 3
  · intro htie
    have := roundHalfEven_tie_even (n * countNh df k) (totalN df) htie
    omega

/-- Witness for the amended C2, at the first allocation row of the
two-singleton-stratum table. -/
theorem preAlloc_round_half_even_holds :
    (⟨0, 1, 0⟩ : AllocRow) ∈ preAlloc [⟨0, 0⟩, ⟨1, 0⟩] 1 ∧
    (|((1 : ℚ) * ((1 : Nat) : ℚ) / (totalN [⟨0, 0⟩, ⟨1, 0⟩] : ℚ)
        - ((0 : Int) : ℚ))| ≤ 1 / 2 ∧
     (2 * ((1 * 1) % totalN [⟨0, 0⟩, ⟨1, 0⟩]) = totalN [⟨0, 0⟩, ⟨1, 0⟩]
       → (0 : Int) % 2 = 0)) :=
  ⟨by decide, preAlloc_round_half_even [⟨0, 0⟩, ⟨1, 0⟩] 1 (by decide)
    ⟨0, 1, 0⟩ (by decide)⟩

/- --------------------- C3 : per-stratum size bounds -------------------- -/

/-- Population of four singleton strata: the residual correction overshoots
the last stratum's population. -/
def cexDf : List Row := [⟨0, 0⟩, ⟨1, 0⟩, ⟨2, 0⟩, ⟨3, 0⟩]

/-- C3 counterexample: with four singleton strata and n = 2 (a valid input,
1 ≤ 2 ≤ 4), all four raw shares are one half and round to 0, so the whole
residual 2 lands on the last stratum, whose nh becomes 2 > Nh = 1. -/
theorem allocate_bounds_cex :
    (1 ≤ 2 ∧ 2 ≤ cexDf.length) ∧
    ¬ ∀ t ∈ allocate cexDf 2, 0 ≤ t.nh ∧ t.nh ≤ (t.Nh : Int) := by
  decide

/-- C3 amended: for every valid input, each entry of the rounded
(pre-correction) allocation satisfies 0 ≤ nh ≤ Nh, and so does every entry
of the final allocation except possibly the last one, which receives the
residual and can exceed its Nh (or go negative). -/
theorem allocate_bounds_except_last (df : List Row) (n : Nat) (hdf : df ≠ [])
    (h1 : 1 ≤ n) (hn : n ≤ df.length) :
    (∀ t ∈ preAlloc df n, 0 ≤ t.nh ∧ t.nh ≤ (t.Nh : Int)) ∧
    (∀ t ∈ (allocate df n).dropLast, 0 ≤ t.nh ∧ t.nh ≤ (t.Nh : Int)) := by
  have hb : 0 < totalN df := by
    rw [totalN_eq_length]
    exact List.length_pos.mpr hdf
  have hpre : ∀ t ∈ preAlloc df n, 0 ≤ t.nh ∧ t.nh ≤ (t.Nh : Int) := by
    intro t ht
    obtain ⟨k, hk, rfl⟩ := List.mem_map.mp ht
    dsimp only
    refine ⟨Int.ofNat_nonneg _, ?_⟩
    have hle : n * countNh df k ≤ totalN df * countNh df k := by
      apply Nat.mul_le_mul_right
      rw [totalN_eq_length]
      exact hn
    have := roundHalfEven_le (n * countNh df k) (totalN df) (countNh df k) hb hle
    exact_mod_cast this
  refine ⟨hpre, ?_⟩
  intro t ht
  rw [alloc_dropLast] at ht
  exact hpre t ((List.dropLast_sublist _).subset ht)

/-- Witness for the amended C3. -/
theorem allocate_bounds_except_last_holds :
    (∀ t ∈ preAlloc cexDf 2, 0 ≤ t.nh ∧ t.nh ≤ (t.Nh : Int)) ∧
    (∀ t ∈ (allocate cexDf 2).dropLast, 0 ≤ t.nh ∧ t.nh ≤ (t.Nh : Int)) :=
  allocate_bounds_except_last cexDf 2 (by decide) (by decide) (by decide)

/- ----------------------- the sampling machinery ------------------------ -/

/-- Errors raised by pandas `DataFrame.sample(n, replace=False)` (both are
plain ValueErrors in pandas): a negative requested size, or a requested size
larger than the population.  The code has no other failure mode in the draw
step and no dedicated allocation-feasibility error. -/
inductive SampleError where
  | negativeRows (requested : Int)
  | largerThanPopulation (requested avail : Nat)
deriving DecidableEq

/-- Contract of the position selection inside `sample(n, random_state=42)`:
seeded with the fixed constant 42, it is a pure function of the frame length
and `n`, and returns `n` distinct valid positions whenever `n ≤ length`. -/
def ValidChoice (choose : Nat → Nat → List Nat) : Prop :=
  ∀ N n, n ≤ N →
    (choose N n).length = n ∧ (choose N n).Nodup ∧ ∀ i ∈ choose N n, i < N

/-- A concrete selection function satisfying the contract, used to
instantiate the oracle on concrete runs. -/
def takeChoice (N n : Nat) : List Nat :=
  (List.range N).take n

theorem takeChoice_valid : ValidChoice takeChoice := by
  intro N n hn
  refine ⟨?_, ?_, ?_⟩
  · rw [takeChoice, List.length_take, List.length_range]
    omega
  · exact (List.take_sublist n _).nodup (List.nodup_range N)
  · intro i hi
    exact List.mem_range.mp (List.take_subset n _ hi)

/-- Models `rows.sample(n=k, random_state=42)`: pandas raises a ValueError on
a negative `k`, a ValueError when `k` exceeds the population size (since
`replace=False`), and otherwise returns the records at the selected
positions. -/
def pdSample (choose : Nat → Nat → List Nat) (rows : List Row) (k : Int) :
    Except SampleError (List Row) :=
  if k < 0 then .error (.negativeRows k)
  else if rows.length < k.toNat then
    .error (.largerThanPopulation k.toNat rows.length)
  else .ok ((choose rows.length k.toNat).filterMap (fun i => rows[i]?))

/-- Models the list comprehension of the stratified branch: one draw
`df[df[strat_var] == row[strat_var]].sample(n=int(row['nh']), random_state=42)`
per allocation row, each tagged with its stratum key; the first raised
exception aborts the run. -/
def drawStrata (choose : Nat → Nat → List Nat) (df : List Row) :
    List AllocRow → Except SampleError (List (Nat × List Row))
  | [] => .ok []
  | t :: ts => do
    let s ← pdSample choose (stratumOf df t.key) t.nh
    let rest ← drawStrata choose df ts
    return (t.key, s) :: rest

/-- The stratified branch end to end: allocation, per-stratum draws,
`final_sample = pd.concat(samples)`. -/
def runStratified (choose : Nat → Nat → List Nat) (df : List Row) (n : Nat) :
    Except SampleError (List Row) :=
  (drawStrata choose df (allocate df n)).map (fun ps => (ps.map Prod.snd).flatten)

/-- The SRS branch, line 158: `sample = df.sample(n=n, random_state=42)`. -/
def runSrs (choose : Nat → Nat → List Nat) (df : List Row) (n : Nat) :
    Except SampleError (List Row) :=
  pdSample choose df (n : Int)

/- --------------------- properties of a single draw --------------------- -/

theorem filterMap_getElem_props (rows : List Row) (hrows : rows.Nodup) :
    ∀ idxs : List Nat, idxs.Nodup → (∀ i ∈ idxs, i < rows.length) →
      (idxs.filterMap (fun i => rows[i]?)).length = idxs.length ∧
      (idxs.filterMap (fun i => rows[i]?)).Nodup ∧
      ∀ r ∈ idxs.filterMap (fun i => rows[i]?), r ∈ rows := by
  intro idxs
  induction idxs with
  | nil => intro _ _; exact ⟨rfl, List.nodup_nil, by intro r hr; cases hr⟩
  | cons i is ih =>
    intro hnd hbd
    have hi : i < rows.length := hbd i (List.mem_cons_self i is)
    have his : is.Nodup := (List.nodup_cons.mp hnd).2
    have hnotmem : i ∉ is := (List.nodup_cons.mp hnd).1
    obtain ⟨ihlen, ihnd, ihmem⟩ := ih his (fun j hj => hbd j (List.mem_cons_of_mem i hj))
    have hsome : (fun i => rows[i]?) i = some rows[i] := List.getElem?_eq_getElem hi
    rw [List.filterMap_cons_some hsome]
    refine ⟨by rw [List.length_cons, ihlen]; rfl, ?_, ?_⟩
    · rw [List.nodup_cons]
      refine ⟨?_, ihnd⟩
      intro hmem
      obtain ⟨j, hj, hjeq⟩ := List.mem_filterMap.mp hmem
      have hjlt : j < rows.length := hbd j (List.mem_cons_of_mem i hj)
      rw [List.getElem?_eq_getElem hjlt] at hjeq
      have : rows.get ⟨j, hjlt⟩ = rows.get ⟨i, hi⟩ := by
        simpa [List.get_eq_getElem] using Option.some.inj hjeq
      have : (⟨j, hjlt⟩ : Fin rows.length) = ⟨i, hi⟩ :=
        (hrows.get_inj_iff).mp this
      have : j = i := congrArg Fin.val this
      exact hnotmem (this ▸ hj)
    · intro r hr
      rcases List.mem_cons.mp hr with h | h
      · rw [h]; exact List.getElem_mem hi
      · exact ihmem r h

theorem pdSample_ok (choose : Nat → Nat → List Nat) (hvc : ValidChoice choose)
    (rows : List Row) (hrows : rows.Nodup) (k : Int)
    (h0 : 0 ≤ k) (hk : k.toNat ≤ rows.length) :
    ∃ s, pdSample choose rows k = .ok s ∧ s.length = k.toNat ∧ s.Nodup ∧
      ∀ r ∈ s, r ∈ rows := by
  unfold pdSample
  rw [if_neg (not_lt.mpr h0), if_neg (not_lt.mpr hk)]
  obtain ⟨hlen, hnd, hmem⟩ := hvc rows.length k.toNat hk
  obtain ⟨l1, l2, l3⟩ := filterMap_getElem_props rows hrows _ hnd hmem
  exact ⟨_, rfl, by rw [l1, hlen], l2, l3⟩

/- ----------------- structure of the allocation table ------------------- -/

theorem mem_addToLast (d : Int) :
    ∀ l : List AllocRow, ∀ t ∈ addToLast d l,
      ∃ t' ∈ l, t.key = t'.key ∧ t.Nh = t'.Nh
  | [] => by intro t ht; cases ht
  | [u] => by
    intro t ht
    rcases List.mem_singleton.mp ht with rfl
    exact ⟨u, List.mem_singleton_self u, rfl, rfl⟩
  | u :: u' :: us => by
    intro t ht
    rcases List.mem_cons.mp ht with h | h
    · exact ⟨u, List.mem_cons_self u _, by rw [h], by rw [h]⟩
    · obtain ⟨t', ht', hk, hN⟩ := mem_addToLast d (u' :: us) t h
      exact ⟨t', List.mem_cons_of_mem u ht', hk, hN⟩

theorem preAlloc_map_key (df : List Row) (n : Nat) :
    (preAlloc df n).map AllocRow.key = stratKeys df := by
  unfold preAlloc
  rw [List.map_map]
  exact List.map_id _

theorem addToLast_map_key (d : Int) :
    ∀ l : List AllocRow, (addToLast d l).map AllocRow.key = l.map AllocRow.key
  | [] => rfl
  | [t] => rfl
  | t :: t' :: ts => by
    have ih := addToLast_map_key d (t' :: ts)
    show AllocRow.key t :: (addToLast d (t' :: ts)).map AllocRow.key = _
    rw [ih]
    rfl

theorem allocate_map_key (df : List Row) (n : Nat) :
    (allocate df n).map AllocRow.key = stratKeys df := by
  unfold allocate
  by_cases h : allocDiff df n = 0
  · rw [if_pos h, preAlloc_map_key]
  · rw [if_neg h, addToLast_map_key, preAlloc_map_key]

theorem allocate_mem_Nh (df : List Row) (n : Nat) :
    ∀ t ∈ allocate df n, t.Nh = countNh df t.key := by
  have hpre : ∀ t ∈ preAlloc df n, t.Nh = countNh df t.key := by
    intro t ht
    obtain ⟨k, hk, rfl⟩ := List.mem_map.mp ht
    rfl
  intro t ht
  rw [allocate] at ht
  by_cases h : allocDiff df n = 0
  · rw [if_pos h] at ht
    exact hpre t ht
  · rw [if_neg h] at ht
    obtain ⟨t', ht', hk, hN⟩ := mem_addToLast _ _ t ht
    rw [hN, hk]
    exact hpre t' ht'

/- ------------------- the per-stratum draws succeed --------------------- -/

theorem forall₂_mem_right {R : AllocRow → Nat × List Row → Prop} :
    ∀ {ts : List AllocRow} {ps : List (Nat × List Row)},
      List.Forall₂ R ts ps → ∀ p ∈ ps, ∃ t ∈ ts, R t p := by
  intro ts ps h
  induction h with
  | nil => intro p hp; cases hp
  | @cons t p ts' ps' hR htail ih =>
    intro q hq
    rcases List.mem_cons.mp hq with rfl | hq'
    · exact ⟨t, List.mem_cons_self t ts', hR⟩
    · obtain ⟨t', ht', hR'⟩ := ih q hq'
      exact ⟨t', List.mem_cons_of_mem t ht', hR'⟩

theorem forall₂_map_fst {R : AllocRow → Nat × List Row → Prop}
    (hfst : ∀ t p, R t p → p.1 = t.key) :
    ∀ {ts : List AllocRow} {ps : List (Nat × List Row)},
      List.Forall₂ R ts ps → ps.map Prod.fst = ts.map AllocRow.key := by
  intro ts ps h
  induction h with
  | nil => rfl
  | @cons t p ts' ps' hR htail ih =>
    show p.1 :: ps'.map Prod.fst = t.key :: ts'.map AllocRow.key
    rw [hfst t p hR, ih]

theorem drawStrata_ok (choose : Nat → Nat → List Nat) (hvc : ValidChoice choose)
    (df : List Row) (hdf : df.Nodup) :
    ∀ ts : List AllocRow,
      (∀ t ∈ ts, 0 ≤ t.nh ∧ t.nh ≤ ((stratumOf df t.key).length : Int)) →
      ∃ ps, drawStrata choose df ts = .ok ps ∧
        List.Forall₂ (fun (t : AllocRow) (p : Nat × List Row) =>
          p.1 = t.key ∧ (p.2.length : Int) = t.nh ∧ p.2.Nodup ∧
          ∀ r ∈ p.2, r ∈ df ∧ r.strat = t.key) ts ps := by
  intro ts
  induction ts with
  | nil => exact fun _ => ⟨[], rfl, List.Forall₂.nil⟩
  | cons t ts' ih =>
    intro hfeas
    obtain ⟨h0, hle⟩ := hfeas t (List.mem_cons_self t ts')
    have hnd : (stratumOf df t.key).Nodup := hdf.filter _
    have hkle : t.nh.toNat ≤ (stratumOf df t.key).length := by omega
    obtain ⟨s, hs, hslen, hsnd, hsmem⟩ :=
      pdSample_ok choose hvc _ hnd t.nh h0 hkle
    obtain ⟨ps, hps, hfa⟩ := ih (fun t' ht' => hfeas t' (List.mem_cons_of_mem t ht'))
    refine ⟨(t.key, s) :: ps, ?_, ?_⟩
    · show (do
        let s ← pdSample choose (stratumOf df t.key) t.nh
        let rest ← drawStrata choose df ts'
        return (t.key, s) :: rest) = Except.ok ((t.key, s) :: ps)
      rw [hs, hps]
      rfl
    · refine List.Forall₂.cons ⟨rfl, ?_, hsnd, ?_⟩ hfa
      · rw [hslen]
        exact Int.toNat_of_nonneg h0
      · intro r hr
        have hmem := hsmem r hr
        have := List.mem_filter.mp hmem
        exact ⟨this.1, by simpa using this.2⟩

/- ------------------ C6 : the combined stratified sample ---------------- -/

/-- C6: for every stratified draw whose allocation is feasible
(0 ≤ nh ≤ Nh on every allocation row), all per-stratum draws succeed, the
concatenated sample has size exactly sum(nh), contains no duplicate records,
and every sampled record's stratification-field value equals the key of the
stratum it was drawn from. -/
theorem stratified_sample_props (choose : Nat → Nat → List Nat)
    (df : List Row) (n : Nat) (hvc : ValidChoice choose) (hdf : df.Nodup)
    (hfeas : ∀ t ∈ allocate df n, 0 ≤ t.nh ∧ t.nh ≤ (t.Nh : Int)) :
    ∃ ps, drawStrata choose df (allocate df n) = .ok ps ∧
      runStratified choose df n = .ok ((ps.map Prod.snd).flatten) ∧
      (((ps.map Prod.snd).flatten).length : Int)
        = ((allocate df n).map AllocRow.nh).sum ∧
      ((ps.map Prod.snd).flatten).Nodup ∧
      ∀ p ∈ ps, ∀ r ∈ p.2, r.strat = p.1 := by
  have hfeas' : ∀ t ∈ allocate df n,
      0 ≤ t.nh ∧ t.nh ≤ ((stratumOf df t.key).length : Int) := by
    intro t ht
    have := hfeas t ht
    have hNh := allocate_mem_Nh df n t ht
    rw [hNh] at this
    exact this
  obtain ⟨ps, hps, hfa⟩ := drawStrata_ok choose hvc df hdf (allocate df n) hfeas'
  have hlen : ∀ (ts : List AllocRow) (qs : List (Nat × List Row)),
      List.Forall₂ (fun (t : AllocRow) (p : Nat × List Row) =>
        p.1 = t.key ∧ (p.2.length : Int) = t.nh ∧ p.2.Nodup ∧
        ∀ r ∈ p.2, r ∈ df ∧ r.strat = t.key) ts qs →
      (((qs.map Prod.snd).flatten).length : Int) = (ts.map AllocRow.nh).sum := by
    intro ts qs h
    induction h with
    | nil => rfl
    | @cons t p ts' qs' hR htail ih =>
      show ((p.2 ++ (qs'.map Prod.snd).flatten).length : Int)
        = t.nh + (ts'.map AllocRow.nh).sum
      rw [List.length_append]
      push_cast
      rw [hR.2.1, ih]
  have hpieces : ∀ p ∈ ps, p.2.Nodup ∧ ∀ r ∈ p.2, r.strat = p.1 := by
    intro p hp
    obtain ⟨t, ht, hR⟩ := forall₂_mem_right hfa p hp
    refine ⟨hR.2.2.1, fun r hr => ?_⟩
    rw [hR.1]
    exact (hR.2.2.2 r hr).2
  have hnodup : ((ps.map Prod.snd).flatten).Nodup := by
    rw [List.nodup_flatten]
    constructor
    · intro l hl
      obtain ⟨p, hp, rfl⟩ := List.mem_map.mp hl
      exact (hpieces p hp).1
    · rw [List.pairwise_map]
      have hkeysnd : (ps.map Prod.fst).Nodup := by
        rw [forall₂_map_fst (fun t p hR => hR.1) hfa, allocate_map_key]
        exact stratKeys_nodup df
      have hpw : ps.Pairwise (fun p q => p.1 ≠ q.1) :=
        List.pairwise_map.mp hkeysnd
      refine hpw.imp_of_mem ?_
      intro p q hp hq hne r hrp hrq
      have h1 := (hpieces p hp).2 r hrp
      have h2 := (hpieces q hq).2 r hrq
      exact hne (h1.symm.trans h2)
  refine ⟨ps, hps, ?_, hlen _ _ hfa, hnodup, fun p hp => (hpieces p hp).2⟩
  unfold runStratified
  rw [hps]
  rfl

/-- Population with two strata of two records each, for concrete runs. -/
def smallDf : List Row := [⟨0, 0⟩, ⟨0, 1⟩, ⟨1, 0⟩, ⟨1, 1⟩]

/-- Witness for C6 at a concrete input. -/
theorem stratified_sample_props_holds :
    ∃ ps, drawStrata takeChoice smallDf (allocate smallDf 2) = .ok ps ∧
      runStratified takeChoice smallDf 2 = .ok ((ps.map Prod.snd).flatten) ∧
      (((ps.map Prod.snd).flatten).length : Int)
        = ((allocate smallDf 2).map AllocRow.nh).sum ∧
      ((ps.map Prod.snd).flatten).Nodup ∧
      ∀ p ∈ ps, ∀ r ∈ p.2, r.strat = p.1 :=
  stratified_sample_props takeChoice smallDf 2 takeChoice_valid
    (by decide) (by decide)

/- -------------------- C4 : no infeasibility guard ---------------------- -/

/-- C4 (the code lacks the specified guard): on four singleton strata with
n = 2 the allocation gives the last stratum nh = 2 while its Nh = 1, and the
run aborts with the generic pandas draw-step error (sample larger than
population) instead of a dedicated infeasible-allocation error: no such
error exists anywhere in the code's failure modes. -/
theorem infeasible_alloc_unguarded :
    (∃ t ∈ allocate cexDf 2, (t.Nh : Int) < t.nh) ∧
    runStratified takeChoice cexDf 2
      = .error (.largerThanPopulation 2 1) := by
  constructor
  · decide
  · rfl

/- ------------------------- C7 : the SRS branch ------------------------- -/

/-- C7: for every population table and 1 ≤ n ≤ N, the SRS branch returns
exactly n distinct records, all present in the population table, with no
duplicates; the run is a pure function of the table, which models that the
table itself is not mutated. -/
theorem srs_sample_props (choose : Nat → Nat → List Nat) (df : List Row)
    (n : Nat) (hvc : ValidChoice choose) (hdf : df.Nodup)
    (h1 : 1 ≤ n) (hn : n ≤ df.length) :
    ∃ s, runSrs choose df n = .ok s ∧ s.length = n ∧ s.Nodup ∧
      ∀ r ∈ s, r ∈ df := by
  obtain ⟨s, hs, hlen, hnd, hmem⟩ :=
    pdSample_ok choose hvc df hdf (n : Int) (Int.natCast_nonneg n)
      (by simpa using hn)
  exact ⟨s, hs, by simpa using hlen, hnd, hmem⟩

/-- Witness for C7 at a concrete input. -/
theorem srs_sample_props_holds :
    ∃ s, runSrs takeChoice smallDf 3 = .ok s ∧ s.length = 3 ∧ s.Nodup ∧
      ∀ r ∈ s, r ∈ smallDf :=
  srs_sample_props takeChoice smallDf 3 takeChoice_valid (by decide)
    (by decide) (by decide)

/- -------------------- C8 : runs are reproducible ----------------------- -/

/-- One full run of the sampling engine for one request (n, stratified?):
the produced allocation table (empty on the SRS path, which builds none) and
the drawn sample.  The constant seed `random_state=42` is baked into
`choose`, exactly as it is baked into the code. -/
def engineRun (choose : Nat → Nat → List Nat) (df : List Row)
    (n : Nat) (stratified : Bool) :
    List AllocRow × Except SampleError (List Row) :=
  if stratified then (allocate df n, runStratified choose df n)
  else ([], runSrs choose df n)

/-- C8: within a session of repeated requests over the same population
table, any two runs with the same parameters produce identical allocation
tables and identical samples (same rows, same order): with the fixed seed
the engine is a pure function of the table and the request. -/
theorem engine_runs_deterministic (choose : Nat → Nat → List Nat)
    (df : List Row) (reqs : List (Nat × Bool)) (i j : Nat)
    (hreq : reqs[i]? = reqs[j]?) :
    (reqs.map (fun q => engineRun choose df q.1 q.2))[i]?
      = (reqs.map (fun q => engineRun choose df q.1 q.2))[j]? := by
  rw [List.getElem?_map, List.getElem?_map, hreq]

/-- Witness for C8: two identical stratified requests in one session. -/
theorem engine_runs_deterministic_holds :
    ([(2, true), (2, true)] : List (Nat × Bool))[0]?
        = ([(2, true), (2, true)] : List (Nat × Bool))[1]? ∧
    (([(2, true), (2, true)] : List (Nat × Bool)).map
        (fun q => engineRun takeChoice smallDf q.1 q.2))[0]?
      = (([(2, true), (2, true)] : List (Nat × Bool)).map
        (fun q => engineRun takeChoice smallDf q.1 q.2))[1]? :=
  ⟨by decide, engine_runs_deterministic takeChoice smallDf
    [(2, true), (2, true)] 0 1 (by decide)⟩

/- ------------- C10 : one stratum degenerates to simple SRS ------------- -/

theorem dedup_replicate_pos (c : Nat) :
    ∀ m : Nat, 0 < m → (List.replicate m c).dedup = [c] := by
  intro m hm
  obtain ⟨m', rfl⟩ : ∃ m', m = m' + 1 := ⟨m - 1, by omega⟩
  rw [List.replicate_succ', dedup_replicate_append c [] m']
  rfl

theorem single_stratum_keys (df : List Row) (c : Nat) (hdf : df ≠ [])
    (hc : ∀ r ∈ df, r.strat = c) : stratKeys df = [c] := by
  unfold stratKeys
  have hmap : df.map Row.strat
      = List.replicate (df.map Row.strat).length c := by
    apply List.eq_replicate_of_mem
    intro b hb
    obtain ⟨r, hr, rfl⟩ := List.mem_map.mp hb
    exact hc r hr
  rw [hmap, dedup_replicate_pos]
  · rfl
  · rw [List.length_map]
    exact List.length_pos.mpr hdf

/-- C10: when the stratification field is constant over the whole table, the
stratified path degenerates to a single stratum receiving nh = n and drawing
from the full table with the same fixed seed, so it returns exactly the rows
the SRS path returns. -/
theorem single_stratum_eq_srs (choose : Nat → Nat → List Nat)
    (df : List Row) (n : Nat) (c : Nat)
    (hc : ∀ r ∈ df, r.strat = c) (hdf : df ≠ [])
    (h1 : 1 ≤ n) (hn : n ≤ df.length) :
    runStratified choose df n = runSrs choose df n := by
  have hb : 0 < df.length := List.length_pos.mpr hdf
  have hkeys := single_stratum_keys df c hdf hc
  have hstr : stratumOf df c = df := by
    unfold stratumOf
    apply List.filter_eq_self.mpr
    intro r hr
    simpa using hc r hr
  have hcount : countNh df c = df.length := by
    rw [countNh, hstr]
  have hpre : preAlloc df n = [⟨c, df.length, (n : Int)⟩] := by
    unfold preAlloc
    rw [hkeys, List.map_cons, List.map_nil, hcount, totalN_eq_length df,
      Nat.mul_comm n df.length, roundHalfEven_exact df.length n hb]
  have hdiff : allocDiff df n = 0 := by
    unfold allocDiff
    rw [hpre]
    simp
  have halloc : allocate df n = [⟨c, df.length, (n : Int)⟩] := by
    rw [allocate, if_pos hdiff, hpre]
  have hdraw : drawStrata choose df [⟨c, df.length, (n : Int)⟩]
      = (pdSample choose df (n : Int)).map (fun s => [(c, s)]) := by
    show (do
      let s ← pdSample choose (stratumOf df c) ((n : Nat) : Int)
      let rest ← drawStrata choose df []
      return (c, s) :: rest)
      = (pdSample choose df (n : Int)).map (fun s => [(c, s)])
    rw [hstr]
    cases h : pdSample choose df ((n : Nat) : Int) with
    | error e => rfl
    | ok s => rfl
  unfold runStratified runSrs
  rw [halloc, hdraw]
  cases h : pdSample choose df ((n : Nat) : Int) with
  | error e => rfl
  | ok s =>
    show Except.ok (([(c, s)].map Prod.snd).flatten) = Except.ok s
    simp

/-- Witness for C10 at a concrete input: a two-record table whose
stratification column is constant. -/
theorem single_stratum_eq_srs_holds :
    runStratified takeChoice [⟨5, 0⟩, ⟨5, 1⟩] 1
      = runSrs takeChoice [⟨5, 0⟩, ⟨5, 1⟩] 1 :=
  single_stratum_eq_srs takeChoice [⟨5, 0⟩, ⟨5, 1⟩] 1 5 (by decide)
    (by decide) (by decide) (by decide)

end Sondage
